import Mathlib

/-!
Verification of the Oakland Police Department scraper
(`clean/ca/oakland_pd.py`) against its natural-language specification.

The Python module is shallowly embedded over `List Char` strings:

* `pySplit` models Python `str.split(sep)` (leftmost, non-overlapping
  matches); `childPageDir` models
  `nextrequest_url.split("folder_filter=")[-1]`.
* `pyStrip` models Python `str.strip()`.
* `pyUrljoin` models `urllib.parse.urljoin` (an external collaborator of
  the core, per the spec) for the reference shapes the scraper exercises:
  absolute `http(s)` references, root-relative references, and relative
  references resolved against the base's last path segment.  Query
  strings are not stripped from the base before joining.
* Fetched HTML documents are abstracted as the `Html` record of exactly
  the features the scraper queries: the anchors with the
  `document-link` class, the first `next`-class anchor's href, and the
  href of the anchor whose text is "Internal Affairs Case No.".
* Network and sleep effects are recorded as an event trace (`Ev`), and
  Python exceptions as the `PyError` error type of an `Except` result.
-/

namespace Oakland

/-- Python strings are modelled as lists of characters. -/
abbrev Str := List Char

/-- Coerce a Lean string literal into the `List Char` model. -/
def str (s : String) : Str := s.data

/-- Characters removed by Python `str.strip()` with no arguments. -/
def isPySpace (c : Char) : Bool :=
  c == ' ' || c == '\t' || c == '\n' || c == '\r' || c == '\x0b' || c == '\x0c'

/-- Model of Python `str.strip()`: drop whitespace from both ends. -/
def pyStrip (s : Str) : Str :=
  ((s.dropWhile isPySpace).reverse.dropWhile isPySpace).reverse

/-- Worker for `pySplit`.  The fuel argument makes the recursion
structural (any fuel at least `s.length` yields Python's behaviour);
on a match the separator's length is consumed from the input, matches
are found leftmost-first and do not overlap, exactly as in CPython. -/
def pySplitAux (sep : Str) : Nat → Str → Str → List Str
  | _, [], acc => [acc.reverse]
  | 0, s, acc => [acc.reverse ++ s]
  | fuel + 1, c :: rest, acc =>
    if sep.isPrefixOf (c :: rest) then
      acc.reverse :: pySplitAux sep fuel (rest.drop (sep.length - 1)) []
    else
      pySplitAux sep fuel rest (c :: acc)

/-- Model of Python `s.split(sep)` for a non-empty separator. -/
def pySplit (sep s : Str) : List Str := pySplitAux sep s.length s []

/-- Python `list[-1]` on the (always non-empty) result of `split`. -/
def lastD (l : List Str) : Str := l.getLastD []

/-- The separator literal `"folder_filter="` from `Site.scrape`. -/
def fsep : Str := str "folder_filter="

/-- Model of `nextrequest_url.split("folder_filter=")[-1]` from
`Site.scrape`: the folder identifier used to namespace downloads. -/
def childPageDir (u : Str) : Str := lastD (pySplit fsep u)

/-- Specification-side description of "everything after the last
occurrence of `sep`": scan the string, preferring an occurrence found
further right, and return the suffix following the rightmost
occurrence, or `none` when `sep` does not occur at all. -/
def afterLastSub (sep : Str) : Str → Option Str
  | [] => none
  | c :: rest =>
    match afterLastSub sep rest with
    | some t => some t
    | none =>
      if sep.isPrefixOf (c :: rest) then some (rest.drop (sep.length - 1))
      else none

/-- A separator is border-free when no proper non-empty suffix of it is
also a prefix of it; such separators cannot self-overlap, so Python's
leftmost non-overlapping scan finds every occurrence. -/
def borderFree (sep : Str) : Prop :=
  ∀ j, j < sep.length → 0 < j → (sep.drop j).isPrefixOf sep = false

lemma pySplitAux_ne_nil (sep : Str) :
    ∀ fuel s acc, pySplitAux sep fuel s acc ≠ [] := by
  intro fuel
  induction fuel with
  | zero => intro s acc; cases s <;> simp [pySplitAux]
  | succ n ih =>
    intro s acc
    cases s with
    | nil => simp [pySplitAux]
    | cons c rest =>
      simp only [pySplitAux]
      split
      · simp
      · exact ih rest (c :: acc)

lemma getLastD_of_ne_nil (a : Str) (l : List Str) (d : Str) (h : l ≠ []) :
    (a :: l).getLastD d = l.getLastD d := by
  cases l with
  | nil => exact absurd rfl h
  | cons b l2 => simp [List.getLastD_cons]

/-- Two occurrences of a border-free pattern cannot overlap: if `sep`
occurs at the start of `s`, it occurs nowhere strictly inside its own
footprint. -/
lemma not_prefix_drop_of_borderFree {sep : Str} (hbf : borderFree sep)
    {s : Str} (hpre : sep <+: s) {j : Nat} (h0 : 0 < j) (hj : j < sep.length) :
    ¬ sep <+: s.drop j := by
  intro hpre2
  obtain ⟨r, rfl⟩ := hpre
  rw [List.drop_append_of_le_length (le_of_lt hj)] at hpre2
  have hdp : sep.drop j <+: sep.drop j ++ r := List.prefix_append _ _
  have hlen : (sep.drop j).length ≤ sep.length := by
    simp [List.length_drop]
  have hps : sep.drop j <+: sep :=
    List.prefix_of_prefix_length_le hdp hpre2 hlen
  have hb := hbf j hj h0
  rw [← List.isPrefixOf_iff_prefix] at hps
  rw [hb] at hps
  exact Bool.false_ne_true hps

lemma afterLastSub_cons_none {sep : Str} {c : Char} {rest : Str}
    (h : afterLastSub sep (c :: rest) = none) :
    afterLastSub sep rest = none ∧ sep.isPrefixOf (c :: rest) = false := by
  cases hr : afterLastSub sep rest with
  | some t => simp [afterLastSub, hr] at h
  | none =>
    refine ⟨rfl, ?_⟩
    by_cases hp : sep.isPrefixOf (c :: rest)
    · simp [afterLastSub, hr, hp] at h
    · exact eq_false_of_ne_true hp

lemma afterLastSub_drop_none {sep : Str} :
    ∀ (s : Str), afterLastSub sep s = none →
      ∀ k, afterLastSub sep (s.drop k) = none := by
  intro s
  induction s with
  | nil => intro h k; simpa using h
  | cons c rest ih =>
    intro h k
    cases k with
    | zero => simpa using h
    | succ k =>
      rw [List.drop_succ_cons]
      exact ih (afterLastSub_cons_none h).1 k

lemma afterLastSub_append_some {sep : Str} {v t : Str}
    (h : afterLastSub sep v = some t) :
    ∀ u, afterLastSub sep (u ++ v) = some t := by
  intro u
  induction u with
  | nil => simpa using h
  | cons c u ih =>
    rw [List.cons_append]
    simp [afterLastSub, ih]

/-- When `afterLastSub` finds a suffix `t`, the string decomposes as
`u ++ sep ++ t` and `sep` does not occur inside `t`. -/
lemma afterLastSub_decomp {sep : Str} (hne : sep ≠ []) :
    ∀ {s t : Str}, afterLastSub sep s = some t →
      (∃ u, s = u ++ (sep ++ t)) ∧ afterLastSub sep t = none := by
  intro s
  induction s with
  | nil => intro t h; simp [afterLastSub] at h
  | cons c rest ih =>
    intro t h
    cases hr : afterLastSub sep rest with
    | some t2 =>
      have ht2 : t2 = t := by
        have := h
        simp [afterLastSub, hr] at this
        exact this
      subst ht2
      obtain ⟨⟨u, hu⟩, hnone⟩ := ih hr
      exact ⟨⟨c :: u, by rw [hu, List.cons_append]⟩, hnone⟩
    | none =>
      by_cases hp : sep.isPrefixOf (c :: rest)
      · have ht : t = rest.drop (sep.length - 1) := by
          have := h
          simp [afterLastSub, hr, hp] at this
          exact this.symm
        have hpre : sep <+: (c :: rest) := by
          rw [← List.isPrefixOf_iff_prefix]; exact hp
        obtain ⟨r, hrr⟩ := hpre
        have hL : sep.length - 1 + 1 = sep.length :=
          Nat.succ_pred_eq_of_pos (List.length_pos.mpr hne)
        have hr2 : rest.drop (sep.length - 1) = r := by
          have hd : (c :: rest).drop sep.length = r := by
            rw [← hrr, List.drop_left]
          rw [← hd, ← hL, List.drop_succ_cons]
          norm_num
        refine ⟨⟨[], ?_⟩, ?_⟩
        · rw [List.nil_append, ← hrr, ht, hr2]
        · rw [ht]
          exact afterLastSub_drop_none rest hr _
      · simp [afterLastSub, hr, hp] at h

/-- No occurrence of a border-free `sep` starts inside the footprint of
an occurrence of `sep` followed by occurrence-free `t`. -/
lemma afterLastSub_dropSep_none {sep t : Str} (hbf : borderFree sep)
    (ht : afterLastSub sep t = none) :
    ∀ m j, sep.length - j = m → 0 < j →
      afterLastSub sep (sep.drop j ++ t) = none := by
  intro m
  induction m with
  | zero =>
    intro j hj h0
    have hle : sep.length ≤ j := by omega
    rw [List.drop_eq_nil_of_le hle, List.nil_append]
    exact ht
  | succ m ih =>
    intro j hj h0
    have hjlt : j < sep.length := by omega
    have hdr : sep.drop j = sep[j] :: sep.drop (j + 1) :=
      List.drop_eq_getElem_cons hjlt
    have hrec : afterLastSub sep (sep.drop (j + 1) ++ t) = none :=
      ih (j + 1) (by omega) (by omega)
    have hnp : sep.isPrefixOf (sep[j] :: (sep.drop (j + 1) ++ t)) = false := by
      have hpre0 : sep <+: sep ++ t := List.prefix_append sep t
      have hnd := not_prefix_drop_of_borderFree hbf hpre0 h0 hjlt
      rw [List.drop_append_of_le_length (le_of_lt hjlt), hdr,
        List.cons_append] at hnd
      rw [← List.isPrefixOf_iff_prefix] at hnd
      exact eq_false_of_ne_true hnd
    rw [hdr, List.cons_append]
    simp [afterLastSub, hrec, hnp]

/-- For a border-free `sep`, the suffix after any decomposition
`u ++ sep ++ t` with occurrence-free `t` is exactly what
`afterLastSub` returns. -/
lemma afterLastSub_surround {sep t : Str} (hne : sep ≠ []) (hbf : borderFree sep)
    (ht : afterLastSub sep t = none) :
    ∀ u, afterLastSub sep (u ++ (sep ++ t)) = some t := by
  intro u
  induction u with
  | cons c u ih =>
    rw [List.cons_append]
    simp [afterLastSub, ih]
  | nil =>
    rw [List.nil_append]
    obtain ⟨a, sep2, hsep⟩ := List.exists_cons_of_ne_nil hne
    have h1 : afterLastSub sep (sep2 ++ t) = none := by
      have hd1 : sep2 = sep.drop 1 := by rw [hsep]; rfl
      rw [hd1]
      exact afterLastSub_dropSep_none hbf ht (sep.length - 1) 1 rfl one_pos
    have h2 : sep.isPrefixOf (sep ++ t) = true := by
      rw [List.isPrefixOf_iff_prefix]
      exact List.prefix_append sep t
    have hshape : sep ++ t = a :: (sep2 ++ t) := by
      rw [hsep, List.cons_append]
    rw [hshape] at h2 ⊢
    have h3 : afterLastSub sep (a :: (sep2 ++ t)) =
        some ((sep2 ++ t).drop (sep.length - 1)) := by
      simp [afterLastSub, h1, h2]
    rw [h3]
    have h4 : (sep2 ++ t).drop (sep.length - 1) = t := by
      have hlen : sep.length - 1 = sep2.length := by
        rw [hsep, List.length_cons]; omega
      rw [hlen, List.drop_left]
    rw [h4]

/-- Main correspondence: for a non-empty border-free separator, the last
element of the Python-style split is the suffix after the rightmost
occurrence of the separator (or the accumulated whole string when the
separator does not occur). -/
lemma pySplitAux_getLastD {sep : Str} (hne : sep ≠ []) (hbf : borderFree sep) :
    ∀ fuel (s acc : Str), s.length ≤ fuel →
      (pySplitAux sep fuel s acc).getLastD [] =
        (afterLastSub sep s).getD (acc.reverse ++ s) := by
  have hLpos : 0 < sep.length := List.length_pos.mpr hne
  intro fuel
  induction fuel with
  | zero =>
    intro s acc hlen
    have hs : s = [] := List.eq_nil_of_length_eq_zero (by omega)
    subst hs
    simp [pySplitAux, afterLastSub]
  | succ n ih =>
    intro s acc hlen
    cases s with
    | nil => simp [pySplitAux, afterLastSub]
    | cons c rest =>
      by_cases hp : sep.isPrefixOf (c :: rest)
      · have hstep : pySplitAux sep (n + 1) (c :: rest) acc =
            acc.reverse :: pySplitAux sep n (rest.drop (sep.length - 1)) [] := by
          simp [pySplitAux, hp]
        rw [hstep, getLastD_of_ne_nil _ _ _ (pySplitAux_ne_nil sep n _ [])]
        have hlen2 : (rest.drop (sep.length - 1)).length ≤ n := by
          rw [List.length_drop]
          have : rest.length + 1 ≤ n + 1 := by simpa using hlen
          omega
        rw [ih _ [] hlen2]
        simp only [List.reverse_nil, List.nil_append]
        cases hr : afterLastSub sep rest with
        | some t =>
          have hrhs : afterLastSub sep (c :: rest) = some t := by
            simp [afterLastSub, hr]
          rw [hrhs]
          obtain ⟨⟨u, hu⟩, hnone⟩ := afterLastSub_decomp hne hr
          have hul : sep.length - 1 ≤ u.length := by
            by_contra hlt
            push_neg at hlt
            have hpre : sep <+: (c :: rest) := by
              rw [← List.isPrefixOf_iff_prefix]; exact hp
            have hnd := not_prefix_drop_of_borderFree hbf hpre
              (j := u.length + 1) (by omega) (by omega)
            apply hnd
            rw [List.drop_succ_cons, hu]
            have : (u ++ (sep ++ t)).drop u.length = sep ++ t := List.drop_left u _
            rw [this]
            exact List.prefix_append sep t
          have hs2 : rest.drop (sep.length - 1) =
              u.drop (sep.length - 1) ++ (sep ++ t) := by
            rw [hu, List.drop_append_of_le_length hul]
          rw [hs2, afterLastSub_surround hne hbf hnone]
          rfl
        | none =>
          have hs2none : afterLastSub sep (rest.drop (sep.length - 1)) = none :=
            afterLastSub_drop_none rest hr _
          have hrhs : afterLastSub sep (c :: rest) =
              some (rest.drop (sep.length - 1)) := by
            simp [afterLastSub, hr, hp]
          rw [hrhs, hs2none]
          rfl
      · have hstep : pySplitAux sep (n + 1) (c :: rest) acc =
            pySplitAux sep n rest (c :: acc) := by
          simp [pySplitAux, hp]
        have hlen2 : rest.length ≤ n := by simpa using hlen
        rw [hstep, ih rest (c :: acc) hlen2]
        have hacc : (c :: acc).reverse ++ rest = acc.reverse ++ (c :: rest) := by
          simp
        rw [hacc]
        cases hr : afterLastSub sep rest with
        | some t =>
          have hrhs : afterLastSub sep (c :: rest) = some t := by
            simp [afterLastSub, hr]
          rw [hrhs]
        | none =>
          have hrhs : afterLastSub sep (c :: rest) = none := by
            simp [afterLastSub, hr, eq_false_of_ne_true hp]
          rw [hrhs]

/-- The concrete separator is non-empty. -/
lemma fsep_ne_nil : fsep ≠ [] := by decide

/-- The concrete separator `"folder_filter="` is border-free. -/
lemma fsep_borderFree : borderFree fsep := by
  have h14 : fsep.length = 14 := rfl
  intro j hj h0
  rw [h14] at hj
  interval_cases j <;> decide

/-- The folder identifier is the suffix of the URL after the rightmost
occurrence of `"folder_filter="`, or the whole URL when absent. -/
lemma childPageDir_eq_afterLast (u : Str) :
    childPageDir u = (afterLastSub fsep u).getD u := by
  have h := pySplitAux_getLastD fsep_ne_nil fsep_borderFree u.length u []
    (le_refl _)
  simpa [childPageDir, pySplit, lastD] using h

/-- Does a reference carry its own `http(s)` scheme? -/
def isAbsoluteUrl (s : Str) : Bool :=
  (str "http://").isPrefixOf s || (str "https://").isPrefixOf s

/-- Keep a path up to and including its last slash (empty when there is
no slash): the base URL's last segment is discarded before a relative
reference is appended. -/
def dropLastSeg (p : Str) : Str :=
  (p.reverse.dropWhile (fun c => c != '/')).reverse

/-- Scheme prefix of an absolute URL (only called on absolute URLs). -/
def schemePrefix (s : Str) : Str :=
  if (str "https://").isPrefixOf s then str "https://" else str "http://"

/-- Model of `urllib.parse.urljoin` (external collaborator) for the
reference shapes this scraper produces: an absolute `http(s)` reference
replaces the base; a root-relative reference keeps the base's scheme
and host; any other reference replaces the base's last path segment.
Query strings are not stripped from the base path before joining, a
simplification that none of the verified properties depend on. -/
def pyUrljoin (base rel : Str) : Str :=
  if rel = [] then base
  else if isAbsoluteUrl rel then rel
  else if isAbsoluteUrl base then
    let pfx := schemePrefix base
    let rest := base.drop pfx.length
    let host := rest.takeWhile (fun c => c != '/')
    let path := rest.drop host.length
    if rel.head? = some '/' then pfx ++ host ++ rel
    else if path = [] then pfx ++ host ++ ('/' :: rel)
    else pfx ++ host ++ dropLastSeg path ++ rel
  else if rel.head? = some '/' then rel
  else dropLastSeg base ++ rel

/-- The value of `self.base_url` set in `Site.__init__`. -/
def baseUrl : Str := str "https://www.oaklandca.gov"

/-- The agency slug `ca_oakland_pd`, which `Site.agency_slug` derives
from the module's directory (`ca`) and file stem (`oakland_pd`); the
source itself annotates the expression with this constant value. -/
def agencySlug : Str := str "ca_oakland_pd"

/-- An HTML anchor as the scraper consumes it: its `href` attribute and
its visible text. -/
structure Anchor where
  href : Str
  text : Str
deriving DecidableEq

/-- A table cell, reduced to the anchors it contains;
`cell.find("a")` is the head of this list. -/
abbrev Cell := List Anchor

/-- A table row, as the list of its `td` cells. -/
abbrev Row := List Cell

/-- One metadata record as `_get_asset_links` builds it. -/
structure AssetRecord where
  asset_url : Str
  name : Str
deriving DecidableEq

/-- One child page entry as `_get_child_page` builds it. -/
structure ChildPage where
  source_name : Str
  url : Str
deriving DecidableEq

/-- Python exceptions relevant to the scraper, plus the distinguishable
error conditions the specification asks for (which the code would have
to raise itself). `attributeError` models `NoneType` attribute access,
`typeError` models subscripting `None`. -/
inductive PyError where
  | attributeError
  | typeError
  | missingTable
  | listingEntryNotFound
deriving DecidableEq

/-- A fetched or cached HTML document, reduced to exactly the queries
the scraper performs on it: all anchors with the `document-link` class
(`find` takes the head), the first `next`-class anchor's href, and the
href of the first anchor whose text is "Internal Affairs Case No.". -/
structure Html where
  docLinks : List Anchor
  nextHref : Option Str
  caseNoHref : Option Str

/-- Observable effects of a run: `time.sleep(throttle)`, a live
`requests.get`, and a `cache.download` (network fetch through the cache
facade). -/
inductive Ev where
  | sleep (n : Nat)
  | netGet (url : Str)
  | cacheDownload (path : List Str) (url : Str)
deriving DecidableEq

/-- A local download path, as the list of its segments. -/
abbrev DPath := List Str

/-- The world the scraper runs against: live pages by URL, and the
cached case-detail page of each child page entry. -/
structure World where
  net : Str → Html
  caseHtml : ChildPage → Html

/-- Body of the row loop of `_get_asset_links`: a row with at least
three columns whose third column contains a hyperlink yields a payload
`{asset_url: href, name: trimmed link text}`; every other row yields
nothing. -/
def processRow (row : Row) : Option AssetRecord :=
  if 3 ≤ row.length then
    match row.get? 2 with
    | some cell =>
      match cell.head? with
      | some a => some ⟨a.href, pyStrip a.text⟩
      | none => none
    | none => none
  else none

/-- Model of `_get_asset_links`: `soup.find("table")` yields `none` on a
page without a table, and the subsequent `table.find_all("tr")` then
raises `AttributeError`; otherwise the rows are scanned in order.  The
JSON file write is modelled by returning the written record list. -/
def getAssetLinks (table : Option (List Row)) : Except PyError (List AssetRecord) :=
  match table with
  | none => Except.error PyError.attributeError
  | some rows => Except.ok (rows.filterMap processRow)

/-- Model of `_get_child_page`.  The loop body (reading the persisted
metadata and building `page_meta` with the record's name and the
base-joined url, after the throttle sleep) is in the source; the tail
of the function is not under `src/`.  Modelled from the spec: the
missing tail collects each `page_meta` in order and returns the list
(`yield {source_name, url}` for each AssetRecord). -/
def getChildPage (metadata : List AssetRecord) : List ChildPage :=
  metadata.map (fun asset => ⟨asset.name, pyUrljoin baseUrl asset.asset_url⟩)

/-- The inner `for file_link in file_links` loop of `Site.scrape`:
for each document link, join its href against the current listing URL,
build the download path `agency_slug/assets/<dir>/<trimmed text>`,
sleep, and download through the cache.  Returns the emitted events and
the collected local paths. -/
def downloadFiles (thr : Nat) (u dir : Str) : List Anchor → List Ev × List DPath
  | [] => ([], [])
  | a :: rest =>
    let fileUrl := pyUrljoin u a.href
    let fileName := pyStrip a.text
    let path := [agencySlug, str "assets", dir, fileName]
    let out := downloadFiles thr u dir rest
    (Ev.sleep thr :: Ev.cacheDownload path fileUrl :: out.1, path :: out.2)

/-- Resolution of the next pagination link: the `next`-class anchor's
href is joined against the current listing URL. -/
def nextUrlOf (u : Str) (page : Html) : Option Str :=
  page.nextHref.map (fun h => pyUrljoin u h)

/-- Result of one pagination traversal: emitted events, downloaded
paths, final visited set (insertion order, newest first), and whether
the `while` condition became false (`halted = false` means the fuel ran
out while the loop was still running). -/
structure WalkOut where
  evs : List Ev
  dls : List DPath
  visited : List Str
  halted : Bool
deriving DecidableEq

/-- The pagination `while` loop of `Site.scrape`.  The loop condition
`nextrequest_url and nextrequest_url not in visited_urls` fails on
`None`, on the empty string (falsy in Python), and on an
already-visited URL.  Each pass adds the URL to the visited set,
fetches the page live, derives the folder identifier from the current
URL, downloads every document link, and follows the resolved next
link.  The fuel argument only bounds the unrolling; the loop itself
has no iteration cap. -/
def walkLoop (net : Str → Html) (thr : Nat) :
    Nat → Option Str → List Str → WalkOut
  | _, none, visited => ⟨[], [], visited, true⟩
  | fuel, some u, visited =>
    if u = [] ∨ u ∈ visited then ⟨[], [], visited, true⟩
    else
      match fuel with
      | 0 => ⟨[], [], visited, false⟩
      | fuel2 + 1 =>
        let visited2 := u :: visited
        let page := net u
        let dir := childPageDir u
        let dn := downloadFiles thr u dir page.docLinks
        let o := walkLoop net thr fuel2 (nextUrlOf u page) visited2
        ⟨Ev.netGet u :: (dn.1 ++ o.evs), dn.2 ++ o.dls, o.visited, o.halted⟩

/-- The `for child_page in child_pages` loop of `Site.scrape`: read the
cached case-detail page; when it links "Internal Affairs Case No.",
join that href against the base URL, fetch the landing page live, take
the first `document-link` anchor's href as the listing entry point
(subscripting `None` raises `TypeError` when the anchor is absent), and
run the pagination loop with a fresh visited set. -/
def scrapeChildren (w : World) (thr fuel : Nat) :
    List ChildPage → List Ev × Except PyError (List DPath)
  | [] => ([], Except.ok [])
  | cp :: rest =>
    let page := w.caseHtml cp
    match page.caseNoHref with
    | none => scrapeChildren w thr fuel rest
    | some href =>
      let landingUrl := pyUrljoin baseUrl href
      let landing := w.net landingUrl
      match landing.docLinks.head? with
      | none => ([Ev.netGet landingUrl], Except.error PyError.typeError)
      | some a =>
        let o := walkLoop w.net thr fuel (some a.href) []
        let out := scrapeChildren w thr fuel rest
        (Ev.netGet landingUrl :: (o.evs ++ out.1),
          out.2.map (fun l => o.dls ++ l))

/-- Model of `Site.scrape(throttle, filter)`: resolve the child pages
from the persisted metadata (one throttle sleep per record, emitted by
`_get_child_page`), then process each child page.  The `filter`
parameter is accepted, as in the source signature. -/
def scrape (w : World) (metadata : List AssetRecord) (fuel thr : Nat)
    (filter : Str) : List Ev × Except PyError (List DPath) :=
  let cps := getChildPage metadata
  let childEvs := metadata.map (fun _ => Ev.sleep thr)
  let out := scrapeChildren w thr fuel cps
  (childEvs ++ out.1, out.2)

/-- The URL of a live fetch event, if it is one. -/
def fetchUrl : Ev → Option Str
  | Ev.netGet u => some u
  | _ => none

/-- URLs of the live `requests.get` fetches recorded in a trace. -/
def fetchedUrls (evs : List Ev) : List Str :=
  evs.filterMap fetchUrl

/-- Is an event a network fetch (live get or cache download)? -/
def isFetch : Ev → Bool
  | Ev.netGet _ => true
  | Ev.cacheDownload _ _ => true
  | Ev.sleep _ => false

/-- Is an event a cache download? -/
def isDl : Ev → Bool
  | Ev.cacheDownload _ _ => true
  | _ => false

/-- Scanner for the claim "every network fetch is immediately preceded
by the throttle sleep", carrying the previous event. -/
def fetchesDelayedFrom (thr : Nat) : Option Ev → List Ev → Bool
  | _, [] => true
  | prev, e :: rest =>
    (if isFetch e then prev == some (Ev.sleep thr) else true) &&
      fetchesDelayedFrom thr (some e) rest

/-- Scanner for "every cache download is immediately preceded by the
throttle sleep". -/
def dlsDelayedFrom (thr : Nat) : Option Ev → List Ev → Bool
  | _, [] => true
  | prev, e :: rest =>
    (if isDl e then prev == some (Ev.sleep thr) else true) &&
      dlsDelayedFrom thr (some e) rest

/-- A row qualifies when it has at least three columns and its third
column contains a hyperlink. -/
def qualRow (row : Row) : Bool :=
  decide (3 ≤ row.length) &&
    (match row.get? 2 with
     | some cell => cell.head?.isSome
     | none => false)

/-- The record extracted from a qualifying row: the third column's
first anchor's href, and that anchor's trimmed text. -/
def recordOfRow (row : Row) : AssetRecord :=
  match row.get? 2 with
  | some cell =>
    match cell.head? with
    | some a => ⟨a.href, pyStrip a.text⟩
    | none => ⟨[], []⟩
  | none => ⟨[], []⟩

lemma processRow_eq (row : Row) :
    processRow row = if qualRow row then some (recordOfRow row) else none := by
  unfold processRow qualRow recordOfRow
  by_cases h3 : 3 ≤ row.length
  · simp only [h3, if_true, decide_eq_true_eq, decide_True, Bool.true_and]
    cases hc : row.get? 2 with
    | none => simp
    | some cell =>
      cases cell with
      | nil => simp
      | cons a as => simp
  · simp [h3]

lemma filterMap_processRow (rows : List Row) :
    rows.filterMap processRow = (rows.filter qualRow).map recordOfRow := by
  induction rows with
  | nil => rfl
  | cons r rest ih =>
    rw [List.filterMap_cons, List.filter_cons, processRow_eq r]
    by_cases hq : qualRow r
    · simp [hq, ih]
    · simp [hq, ih]

lemma fetchedUrls_append (l1 l2 : List Ev) :
    fetchedUrls (l1 ++ l2) = fetchedUrls l1 ++ fetchedUrls l2 :=
  List.filterMap_append l1 l2 fetchUrl

lemma fetchedUrls_netGet_cons (u : Str) (evs : List Ev) :
    fetchedUrls (Ev.netGet u :: evs) = u :: fetchedUrls evs := by
  simp [fetchedUrls, List.filterMap_cons, fetchUrl]

lemma fetchedUrls_downloadFiles (thr : Nat) (u dir : Str) :
    ∀ links, fetchedUrls (downloadFiles thr u dir links).1 = [] := by
  intro links
  induction links with
  | nil => rfl
  | cons a rest ih =>
    simp only [downloadFiles, fetchedUrls, List.filterMap_cons]
    simpa [fetchUrl, fetchedUrls] using ih

lemma downloadFiles_dls (thr : Nat) (u dir : Str) :
    ∀ links, (downloadFiles thr u dir links).2 =
      links.map (fun a => [agencySlug, str "assets", dir, pyStrip a.text]) := by
  intro links
  induction links with
  | nil => rfl
  | cons a rest ih => simp [downloadFiles, ih]

/-- Evaluation of the `while` loop at a URL on which the loop runs. -/
lemma walkLoop_go (net : Str → Html) (thr fuel : Nat) (u : Str)
    (visited : List Str) (hgo : ¬ (u = [] ∨ u ∈ visited)) :
    walkLoop net thr (fuel + 1) (some u) visited =
      ⟨Ev.netGet u :: ((downloadFiles thr u (childPageDir u) (net u).docLinks).1 ++
          (walkLoop net thr fuel (nextUrlOf u (net u)) (u :: visited)).evs),
        (downloadFiles thr u (childPageDir u) (net u).docLinks).2 ++
          (walkLoop net thr fuel (nextUrlOf u (net u)) (u :: visited)).dls,
        (walkLoop net thr fuel (nextUrlOf u (net u)) (u :: visited)).visited,
        (walkLoop net thr fuel (nextUrlOf u (net u)) (u :: visited)).halted⟩ := by
  simp [walkLoop, hgo]

/-- Evaluation of the `while` loop when its condition is false. -/
lemma walkLoop_stop (net : Str → Html) (thr fuel : Nat) (u : Str)
    (visited : List Str) (hstop : u = [] ∨ u ∈ visited) :
    walkLoop net thr fuel (some u) visited = ⟨[], [], visited, true⟩ := by
  cases fuel <;> simp [walkLoop, hstop]

/-- Each pagination traversal fetches a URL at most once, and never a
URL already in the visited set. -/
lemma walkLoop_fetched (net : Str → Html) (thr : Nat) :
    ∀ fuel (cur : Option Str) (visited : List Str),
      (fetchedUrls (walkLoop net thr fuel cur visited).evs).Nodup ∧
      ∀ u ∈ fetchedUrls (walkLoop net thr fuel cur visited).evs,
        u ∉ visited := by
  intro fuel
  induction fuel with
  | zero =>
    intro cur visited
    cases cur with
    | none => simp [walkLoop, fetchedUrls]
    | some u =>
      by_cases hstop : u = [] ∨ u ∈ visited
      · rw [walkLoop_stop net thr 0 u visited hstop]
        simp [fetchedUrls]
      · simp [walkLoop, hstop, fetchedUrls]
  | succ n ih =>
    intro cur visited
    cases cur with
    | none => simp [walkLoop, fetchedUrls]
    | some u =>
      by_cases hstop : u = [] ∨ u ∈ visited
      · rw [walkLoop_stop net thr (n + 1) u visited hstop]
        simp [fetchedUrls]
      · rw [walkLoop_go net thr n u visited hstop]
        have hnv : u ∉ visited := fun hv => hstop (Or.inr hv)
        obtain ⟨ihn, ihm⟩ := ih (nextUrlOf u (net u)) (u :: visited)
        have hfu : fetchedUrls (Ev.netGet u ::
            ((downloadFiles thr u (childPageDir u) (net u).docLinks).1 ++
              (walkLoop net thr n (nextUrlOf u (net u)) (u :: visited)).evs)) =
            u :: fetchedUrls
              (walkLoop net thr n (nextUrlOf u (net u)) (u :: visited)).evs := by
          rw [fetchedUrls_netGet_cons, fetchedUrls_append,
            fetchedUrls_downloadFiles thr u (childPageDir u) (net u).docLinks,
            List.nil_append]
        constructor
        · rw [hfu]
          refine List.nodup_cons.mpr ⟨?_, ihn⟩
          intro hmem
          exact (ihm u hmem) (List.mem_cons_self u visited)
        · rw [hfu]
          intro x hx
          rcases List.mem_cons.mp hx with hx1 | hx2
          · subst hx1; exact hnv
          · intro hxv
            exact (ihm x hx2) (List.mem_cons_of_mem u hxv)

/-- The downloads produced while visiting the page at `u`: one path per
document link, namespaced by the folder identifier of `u` itself. -/
def pageFiles (u : Str) (page : Html) : List DPath :=
  page.docLinks.map
    (fun a => [agencySlug, str "assets", childPageDir u, pyStrip a.text])

/-- The downloads of a traversal are exactly the per-page downloads of
the fetched URLs, each page namespaced by its own URL's folder
identifier. -/
lemma walkLoop_dls (net : Str → Html) (thr : Nat) :
    ∀ fuel (cur : Option Str) (visited : List Str),
      (walkLoop net thr fuel cur visited).dls =
        (fetchedUrls (walkLoop net thr fuel cur visited).evs).flatMap
          (fun u => pageFiles u (net u)) := by
  intro fuel
  induction fuel with
  | zero =>
    intro cur visited
    cases cur with
    | none => simp [walkLoop, fetchedUrls]
    | some u =>
      by_cases hstop : u = [] ∨ u ∈ visited
      · rw [walkLoop_stop net thr 0 u visited hstop]; simp [fetchedUrls]
      · simp [walkLoop, hstop, fetchedUrls]
  | succ n ih =>
    intro cur visited
    cases cur with
    | none => simp [walkLoop, fetchedUrls]
    | some u =>
      by_cases hstop : u = [] ∨ u ∈ visited
      · rw [walkLoop_stop net thr (n + 1) u visited hstop]; simp [fetchedUrls]
      · rw [walkLoop_go net thr n u visited hstop]
        have hfu : fetchedUrls (Ev.netGet u ::
            ((downloadFiles thr u (childPageDir u) (net u).docLinks).1 ++
              (walkLoop net thr n (nextUrlOf u (net u)) (u :: visited)).evs)) =
            u :: fetchedUrls
              (walkLoop net thr n (nextUrlOf u (net u)) (u :: visited)).evs := by
          rw [fetchedUrls_netGet_cons, fetchedUrls_append,
            fetchedUrls_downloadFiles thr u (childPageDir u) (net u).docLinks,
            List.nil_append]
        rw [hfu]
        simp only [List.flatMap_cons]
        rw [← ih (nextUrlOf u (net u)) (u :: visited)]
        rw [downloadFiles_dls]
        rfl

/-- The event preceding a continuation that follows `xs`, given the
event preceding `xs`. -/
def lastO (prev : Option Ev) (xs : List Ev) : Option Ev :=
  match xs.getLast? with
  | some e => some e
  | none => prev

lemma lastO_nil (prev : Option Ev) : lastO prev [] = prev := rfl

lemma lastO_cons (prev : Option Ev) (e : Ev) (xs : List Ev) :
    lastO prev (e :: xs) = lastO (some e) xs := by
  cases xs with
  | nil => rfl
  | cons f ys =>
    unfold lastO
    cases hgl : (f :: ys).getLast? with
    | some g => simp [hgl]
    | none => simp at hgl

lemma dlsDelayedFrom_append (thr : Nat) :
    ∀ (xs : List Ev) (prev : Option Ev) (ys : List Ev),
      dlsDelayedFrom thr prev (xs ++ ys) =
        (dlsDelayedFrom thr prev xs && dlsDelayedFrom thr (lastO prev xs) ys) := by
  intro xs
  induction xs with
  | nil => intro prev ys; simp [dlsDelayedFrom, lastO_nil]
  | cons e xs ih =>
    intro prev ys
    rw [List.cons_append]
    simp only [dlsDelayedFrom, ih (some e) ys, lastO_cons, Bool.and_assoc]

lemma dlsDelayedFrom_downloadFiles (thr : Nat) (u dir : Str) :
    ∀ links (prev : Option Ev),
      dlsDelayedFrom thr prev (downloadFiles thr u dir links).1 = true := by
  intro links
  induction links with
  | nil => intro prev; rfl
  | cons a rest ih =>
    intro prev
    simp only [downloadFiles, dlsDelayedFrom, isDl]
    simp [ih]

lemma dlsDelayedFrom_walkLoop (net : Str → Html) (thr : Nat) :
    ∀ fuel (cur : Option Str) (visited : List Str) (prev : Option Ev),
      dlsDelayedFrom thr prev (walkLoop net thr fuel cur visited).evs = true := by
  intro fuel
  induction fuel with
  | zero =>
    intro cur visited prev
    cases cur with
    | none => rfl
    | some u =>
      by_cases hstop : u = [] ∨ u ∈ visited
      · rw [walkLoop_stop net thr 0 u visited hstop]; rfl
      · simp [walkLoop, hstop, dlsDelayedFrom]
  | succ n ih =>
    intro cur visited prev
    cases cur with
    | none => rfl
    | some u =>
      by_cases hstop : u = [] ∨ u ∈ visited
      · rw [walkLoop_stop net thr (n + 1) u visited hstop]; rfl
      · rw [walkLoop_go net thr n u visited hstop]
        simp [dlsDelayedFrom, isDl, dlsDelayedFrom_append,
          dlsDelayedFrom_downloadFiles, ih]

/-- Evaluation of the child-page loop when the case-detail page has no
"Internal Affairs Case No." link: the entry is skipped. -/
lemma scrapeChildren_cons_skip (w : World) (thr fuel : Nat) (cp : ChildPage)
    (rest : List ChildPage) (h : (w.caseHtml cp).caseNoHref = none) :
    scrapeChildren w thr fuel (cp :: rest) = scrapeChildren w thr fuel rest := by
  simp [scrapeChildren, h]

/-- Evaluation of the child-page loop when the landing page lacks a
`document-link` anchor: subscripting `None` raises `TypeError`. -/
lemma scrapeChildren_cons_err (w : World) (thr fuel : Nat) (cp : ChildPage)
    (rest : List ChildPage) (href : Str)
    (h1 : (w.caseHtml cp).caseNoHref = some href)
    (h2 : ((w.net (pyUrljoin baseUrl href)).docLinks).head? = none) :
    scrapeChildren w thr fuel (cp :: rest) =
      ([Ev.netGet (pyUrljoin baseUrl href)],
        Except.error PyError.typeError) := by
  simp [scrapeChildren, h1, h2]

/-- Evaluation of the child-page loop when a listing entry is found:
the pagination loop runs from the raw entry href with a fresh visited
set, followed by the remaining child pages. -/
lemma scrapeChildren_cons_go (w : World) (thr fuel : Nat) (cp : ChildPage)
    (rest : List ChildPage) (href : Str) (a : Anchor)
    (h1 : (w.caseHtml cp).caseNoHref = some href)
    (h2 : ((w.net (pyUrljoin baseUrl href)).docLinks).head? = some a) :
    scrapeChildren w thr fuel (cp :: rest) =
      (Ev.netGet (pyUrljoin baseUrl href) ::
          ((walkLoop w.net thr fuel (some a.href) []).evs ++
            (scrapeChildren w thr fuel rest).1),
        (scrapeChildren w thr fuel rest).2.map
          (fun l => (walkLoop w.net thr fuel (some a.href) []).dls ++ l)) := by
  simp [scrapeChildren, h1, h2]

lemma dlsDelayedFrom_scrapeChildren (w : World) (thr fuel : Nat) :
    ∀ (cps : List ChildPage) (prev : Option Ev),
      dlsDelayedFrom thr prev (scrapeChildren w thr fuel cps).1 = true := by
  intro cps
  induction cps with
  | nil => intro prev; rfl
  | cons cp rest ih =>
    intro prev
    cases h1 : (w.caseHtml cp).caseNoHref with
    | none => rw [scrapeChildren_cons_skip w thr fuel cp rest h1]; exact ih prev
    | some href =>
      cases h2 : ((w.net (pyUrljoin baseUrl href)).docLinks).head? with
      | none => rw [scrapeChildren_cons_err w thr fuel cp rest href h1 h2]; rfl
      | some a =>
        rw [scrapeChildren_cons_go w thr fuel cp rest href a h1 h2]
        simp [dlsDelayedFrom, isDl, dlsDelayedFrom_append,
          dlsDelayedFrom_walkLoop, ih]

lemma dlsDelayedFrom_sleeps (thr : Nat) (metadata : List AssetRecord) :
    ∀ prev, dlsDelayedFrom thr prev
      (metadata.map (fun _ => Ev.sleep thr)) = true := by
  induction metadata with
  | nil => intro prev; rfl
  | cons x rest ih =>
    intro prev
    simp only [List.map_cons, dlsDelayedFrom, isDl, if_false, Bool.true_and]
    exact ih _

/-- Every cache download in a full `scrape` run is immediately preceded
by the throttle sleep. -/
lemma dlsDelayedFrom_scrape (w : World) (metadata : List AssetRecord)
    (fuel thr : Nat) (filter : Str) :
    dlsDelayedFrom thr none (scrape w metadata fuel thr filter).1 = true := by
  simp only [scrape, dlsDelayedFrom_append, dlsDelayedFrom_sleeps,
    dlsDelayedFrom_scrapeChildren, Bool.and_self]

/-- The download phase can only raise `TypeError`; in particular it
never produces the distinguishable listing-entry-not-found condition
the specification calls for. -/
lemma scrapeChildren_no_lenf (w : World) (thr fuel : Nat) :
    ∀ (cps : List ChildPage),
      (scrapeChildren w thr fuel cps).2 ≠
        Except.error PyError.listingEntryNotFound := by
  intro cps
  induction cps with
  | nil => simp [scrapeChildren]
  | cons cp rest ih =>
    cases h1 : (w.caseHtml cp).caseNoHref with
    | none => rw [scrapeChildren_cons_skip w thr fuel cp rest h1]; exact ih
    | some href =>
      cases h2 : ((w.net (pyUrljoin baseUrl href)).docLinks).head? with
      | none =>
        rw [scrapeChildren_cons_err w thr fuel cp rest href h1 h2]
        simp
      | some a =>
        rw [scrapeChildren_cons_go w thr fuel cp rest href a h1 h2]
        cases hres : (scrapeChildren w thr fuel rest).2 with
        | ok l => simp [hres, Except.map]
        | error e =>
          rw [hres] at ih
          simp only [hres, Except.map]
          intro hc
          apply ih
          injection hc with hc2
          rw [hc2]

/-- A two-page site whose "next" links form the cycle A → B → A. -/
def netAB : Str → Html := fun u =>
  if u = str "A" then ⟨[], some (str "B"), none⟩
  else if u = str "B" then ⟨[], some (str "A"), none⟩
  else ⟨[], none, none⟩

/-- Entry listing URL for the folder-identifier counterexample. -/
def url6 : Str := str "https://s.com/l?folder_filter=1"

/-- A two-page chain whose pages carry different `folder_filter`
values. -/
def net6 : Str → Html := fun u =>
  if u = url6 then
    ⟨[⟨str "a.pdf", str "n1"⟩], some (str "https://s.com/m?folder_filter=2"), none⟩
  else ⟨[⟨str "b.pdf", str "n2"⟩], none, none⟩

/-- A world whose external landing pages have no `document-link`
anchor. -/
def world7 : World :=
  ⟨fun _ => ⟨[], none, none⟩, fun _ => ⟨[], none, some (str "/req/1")⟩⟩

/-- One persisted metadata record. -/
def meta7 : List AssetRecord := [⟨str "/case/1", str "Case 1"⟩]

/-- A world with one case link, a landing page carrying the listing
entry, and a listing page with one document. -/
def world8 : World :=
  ⟨fun u =>
      if u = pyUrljoin baseUrl (str "/c") then
        ⟨[⟨str "http://l/1", str "e"⟩], none, none⟩
      else ⟨[⟨str "f.pdf", str "doc1"⟩], none, none⟩,
    fun _ => ⟨[], none, some (str "/c")⟩⟩

/-- One persisted metadata record for the throttle counterexample. -/
def meta8 : List AssetRecord := [⟨str "/case/8", str "Case 8"⟩]

/-- Current listing URL for the relative-next-link scenario. -/
def url9 : Str := str "https://ex.com/docs/list?page=1"

/-- The relative next href on that listing page. -/
def href9 : Str := str "list?page=2"

/-- A listing whose first page carries a relative "next" href. -/
def net9 : Str → Html := fun u =>
  if u = url9 then ⟨[], some href9, none⟩ else ⟨[], none, none⟩

/-- C1: for every index page whose table has N qualifying rows (at
least three columns and a hyperlink in the third column), the metadata
extractor produces exactly the N records of the qualifying rows, in row
order, each with `asset_url` the link's href and `name` the link's
trimmed text; rows with fewer than three columns, and third columns
without a hyperlink, are skipped silently. -/
theorem claim1_metadata_extractor_rows (rows : List Row) :
    getAssetLinks (some rows) =
      Except.ok ((rows.filter qualRow).map recordOfRow) := by
  show Except.ok (rows.filterMap processRow) = _
  rw [filterMap_processRow]

/-- C2: each pagination traversal fetches every distinct listing URL at
most once, even when a "next" link points back to an earlier URL; on
the concrete cycle A → B → A the walker fetches A then B, ends with
visited set {A, B}, and halts (the loop condition goes false) rather
than looping. -/
theorem claim2_walker_cycle_safety :
    (∀ (net : Str → Html) (thr fuel : Nat) (cur : Option Str)
        (visited : List Str),
      (fetchedUrls (walkLoop net thr fuel cur visited).evs).Nodup) ∧
    walkLoop netAB 0 10 (some (str "A")) [] =
      ⟨[Ev.netGet (str "A"), Ev.netGet (str "B")], [],
        [str "B", str "A"], true⟩ := by
  constructor
  · intro net thr fuel cur visited
    exact (walkLoop_fetched net thr fuel cur visited).1
  · decide

/-- C3: the child page resolver yields one ChildPage per persisted
AssetRecord, in order, whose `source_name` is the record's name and
whose `url` is the record's asset_url joined against the site's base
URL. -/
theorem claim3_child_page_resolver (metadata : List AssetRecord) :
    (getChildPage metadata).length = metadata.length ∧
    ∀ i : Nat, (getChildPage metadata)[i]? =
      (metadata[i]?).map
        (fun a => ChildPage.mk a.name (pyUrljoin baseUrl a.asset_url)) := by
  constructor
  · simp [getChildPage]
  · intro i
    simp [getChildPage, List.getElem?_map]

/-- C4: on an index page with no table element the metadata extractor
does fail loudly (never silently returns empty), but by letting the
null-table dereference propagate as `AttributeError`; it never raises
the distinguishable missing-table error the claim describes. -/
theorem claim4_missing_table_attribute_error :
    getAssetLinks none = Except.error PyError.attributeError ∧
    ∀ table : Option (List Row),
      getAssetLinks table ≠ Except.error PyError.missingTable := by
  refine ⟨rfl, ?_⟩
  intro table
  cases table with
  | none => simp [getAssetLinks]
  | some rows => simp [getAssetLinks]

/-- C5: `folder_identifier` is everything after the last occurrence of
the substring `folder_filter=` in the listing URL, and the whole URL
when that substring is absent; in particular a URL ending in
`folder_filter=42/docs` yields `42/docs`. -/
theorem claim5_folder_identifier :
    (∀ u : Str, childPageDir u = (afterLastSub fsep u).getD u) ∧
    (∀ u : Str, afterLastSub fsep u = none → childPageDir u = u) ∧
    childPageDir (str "https://ex.org/list?folder_filter=42/docs") =
      str "42/docs" := by
  refine ⟨childPageDir_eq_afterLast, ?_, by decide⟩
  intro u h
  rw [childPageDir_eq_afterLast, h]
  rfl

/-- Witness for C5: a URL without the substring, on which the fallback
clause of the theorem evaluates concretely. -/
theorem claim5_folder_identifier_witness :
    afterLastSub fsep (str "https://plain") = none ∧
    childPageDir (str "https://plain") = str "https://plain" :=
  ⟨by decide, claim5_folder_identifier.2.1 (str "https://plain") (by decide)⟩

/-- C6 counterexample: in a single traversal whose two pages carry
`folder_filter=1` and `folder_filter=2`, the two downloads land under
folders `1` and `2`; the identifier is therefore not derived once from
the entry URL and reused unchanged. -/
theorem claim6_folder_identifier_counterexample :
    childPageDir url6 = str "1" ∧
    (walkLoop net6 0 5 (some url6) []).dls.map (fun p => p[2]?) =
      [some (str "1"), some (str "2")] ∧
    ¬ (∀ p ∈ (walkLoop net6 0 5 (some url6) []).dls,
        p[2]? = some (childPageDir url6)) := by
  decide

/-- C6 (amended): the folder identifier is recomputed from the current
listing URL on every page of a traversal — the downloads are exactly
the per-page document links, each namespaced by the folder identifier
of the page it was found on, not by the entry URL's identifier. -/
theorem claim6_folder_identifier_per_page (net : Str → Html)
    (thr fuel : Nat) (cur : Option Str) (visited : List Str) :
    (walkLoop net thr fuel cur visited).dls =
      (fetchedUrls (walkLoop net thr fuel cur visited).evs).flatMap
        (fun u => pageFiles u (net u)) :=
  walkLoop_dls net thr fuel cur visited

/-- C7: when the external landing page has no `document-link` anchor,
the scraper crashes with `TypeError` from subscripting `None`; it never
produces the distinguishable listing-entry-not-found condition the
claim describes. -/
theorem claim7_missing_doclink_type_error :
    (scrape world7 meta7 5 0 (str "")).2 = Except.error PyError.typeError ∧
    ∀ (w : World) (m : List AssetRecord) (fuel thr : Nat) (f : Str),
      (scrape w m fuel thr f).2 ≠
        Except.error PyError.listingEntryNotFound := by
  constructor
  · rfl
  · intro w m fuel thr f
    show (scrapeChildren w thr fuel (getChildPage m)).2 ≠ _
    exact scrapeChildren_no_lenf w thr fuel (getChildPage m)

/-- C8 counterexample: a run with one case page, a landing page and one
listing page has a trace in which not every network fetch is
immediately preceded by the throttle sleep (the landing and listing
`requests.get` fetches are not), even though every cache download is. -/
theorem claim8_throttle_counterexample :
    fetchesDelayedFrom 1 none (scrape world8 meta8 5 1 (str "")).1 = false ∧
    dlsDelayedFrom 1 none (scrape world8 meta8 5 1 (str "")).1 = true := by
  decide

/-- C8 (amended): the throttle sleep is applied immediately before
every asset download through the cache, for every world, metadata set,
fuel, throttle and filter; live listing/landing fetches carry no such
guarantee. -/
theorem claim8_downloads_delayed (w : World) (m : List AssetRecord)
    (fuel thr : Nat) (f : Str) :
    dlsDelayedFrom thr none (scrape w m fuel thr f).1 = true :=
  dlsDelayedFrom_scrape w m fuel thr f

/-- C9: the next pagination URL is the `next` anchor's href joined
against the current listing URL; concretely, a relative href on a page
of `ex.com` resolves to an `ex.com` URL — which the walker then
fetches — and not to the join against the site base URL. -/
theorem claim9_next_resolved_against_current :
    (∀ (u h : Str) (d : List Anchor) (c : Option Str),
      nextUrlOf u ⟨d, some h, c⟩ = some (pyUrljoin u h)) ∧
    fetchedUrls (walkLoop net9 0 5 (some url9) []).evs =
      [url9, str "https://ex.com/docs/list?page=2"] ∧
    pyUrljoin baseUrl href9 ≠ str "https://ex.com/docs/list?page=2" := by
  refine ⟨fun u h d c => rfl, by decide, by decide⟩

/-- C10: the `filter` parameter of `scrape` is accepted but never
consulted: two runs differing only in the filter string produce
identical traces and identical results. -/
theorem claim10_filter_unused (w : World) (m : List AssetRecord)
    (fuel thr : Nat) (f1 f2 : Str) :
    scrape w m fuel thr f1 = scrape w m fuel thr f2 := rfl

end Oakland

